import Mathlib

/-!
Verification development for the `entropy` CLI tool (EwenQuim/entropy).

The embedding below follows the current implementation (main.go of the
repository head, given as src/unnamed/part_000):

* `Entropy` (a finding), `Entropies` (the bounded top-K registry),
  `NewEntropies`, `Entropies.Add` — the concurrent registry; modelled here
  sequentially (the mutex field is elided: a sequence of `Add` calls is a
  sequence of critical sections, and both the unlocked fast check and the
  locked re-check are kept).  Scores are modelled as `ℚ`: the Go code only
  compares scores with `>=`/`>`, so any linearly ordered score type is a
  faithful model of the float64 comparisons (entropy values are never NaN).
  A Go runtime panic (out-of-range slice index) is modelled by `Option`:
  `none` means the call panics.
* `isFileHidden`, `isFileIncluded` — the path classifier.  Go's byte-level
  `strings.HasSuffix`/`HasPrefix`/`TrimPrefix` on valid UTF-8 strings
  coincide with suffix/prefix on the code-point lists, which is how they are
  modelled (`String.data`).
* `readFile` — the tree walker, over a model filesystem `FSNode`.
  Directory children are scanned by concurrently spawned goroutines; the
  model concatenates the children's offers in order, which represents the
  multiset of offers (the claims settled against the walker concern which
  files contribute offers, not their interleaving).  A line of a file is
  modelled by the result of Go's `strings.TrimSpace`/`strings.Fields`/
  `utf8.ValidString` on it: its `fields` (whitespace-separated tokens) and
  whether the trimmed text is valid UTF-8.  Stat/open/ReadDir failures are
  not modelled (the model filesystem always answers); in every path that is
  modelled the Go function returns a nil error.
* `entropy` — the scorer, over `ℝ` with exact rational frequencies
  (`float64` arithmetic is modelled by real arithmetic).  Go's `len(text)`
  is the byte length of the string, modelled by summing `Char.utf8Size`.
-/

/-- A finding: one token with its entropy score (struct `Entropy` in the Go
source; field names are kept). -/
structure Entropy where
  Entropy : ℚ
  File : String
  LineNum : Int
  Line : String
deriving DecidableEq, Repr

instance : Inhabited Entropy := ⟨⟨0, "", 0, ""⟩⟩

/-- The bounded top-K registry (struct `Entropies`; the `sync.Mutex` field is
elided in this sequential model). -/
structure Entropies where
  Entropies : List Entropy
  maxLength : Nat
deriving DecidableEq, Repr

/-- Alias for the registry type, usable inside the `Entropies` namespace
where the bare name `Entropies` resolves to the field accessor. -/
abbrev Registry : Type := Entropies

/-- `NewEntropies(n)`: `make([]Entropy, n)` fills the slice with `n` zero
values of `Entropy` (score 0, empty strings, line 0). -/
def NewEntropies (n : Nat) : Entropies :=
  ⟨List.replicate n default, n⟩

/-- Go slice indexing `xs[i]` with an `int` index: `none` models the runtime
panic on an out-of-range (in particular negative) index. -/
def goGet (xs : List α) (i : Int) : Option α :=
  if i < 0 then none else xs.get? i.toNat

/-- `l.take i ++ a :: l.drop i`: the effect of
`copy(es[i+1:], es[i:]); es[i] = e` on the slice contents, before the final
truncation back to the original length (which the `copy` performs implicitly
by discarding the last element; see `Entropies.Add`). -/
def insertAt (i : Nat) (a : α) (l : List α) : List α :=
  l.take i ++ a :: l.drop i

/-- The loop of Go's `slices.BinarySearchFunc(es.Entropies, e, cmp)` with
`cmp(a, b) = 1` if `b.Entropy > a.Entropy`, `-1` if `a.Entropy > b.Entropy`,
`0` otherwise: `i, j := 0, n; for i < j { h := (i+j)/2; if cmp(x[h], e) < 0 {
i = h+1 } else { j = h } }; return i`.  The loop runs at most `n` times
(`j - i` strictly decreases), so fuel `n` is sufficient; fuel keeps the
definition structurally recursive. -/
def bsLoop (xs : List Entropy) (v : ℚ) : Nat → Nat → Nat → Nat
  | 0, i, _ => i
  | fuel + 1, i, j =>
    if i < j then
      let m := (i + j) / 2
      if v < (xs.getD m default).Entropy then bsLoop xs v fuel (m + 1) j
      else bsLoop xs v fuel i m
    else i

/-- `slices.BinarySearchFunc` as called in `Entropies.Add` (index only; the
`found` result is discarded by the Go code). -/
def bsearch (xs : List Entropy) (v : ℚ) : Nat :=
  bsLoop xs v xs.length 0 xs.length

/-- `Entropies.Add`: the unlocked fast reject (indexing with
`es.maxLength-1`), then the locked re-check (indexing with
`len(es.Entropies)-1`), then binary-search insert with right-shift that
drops the last element.  `none` models a panic. -/
def Entropies.Add (es : Registry) (e : Entropy) : Option Registry :=
  match goGet es.Entropies ((es.maxLength : Int) - 1) with
  | none => none
  | some lastFast =>
    if lastFast.Entropy ≥ e.Entropy then some es
    else
      match goGet es.Entropies ((es.Entropies.length : Int) - 1) with
      | none => none
      | some lastLocked =>
        if lastLocked.Entropy ≥ e.Entropy then some es
        else
          some ⟨(insertAt (bsearch es.Entropies e.Entropy) e es.Entropies).dropLast,
                es.maxLength⟩

/-- A finite sequence of `Add` calls (the single-threaded interleaving of
offers); `none` as soon as one call panics. -/
def Entropies.AddAll (es : Registry) (l : List Entropy) : Option Registry :=
  l.foldlM Entropies.Add es

/-!  ## Path classifier and tree walker  -/

/-- The CLI configuration consumed by the walker (the Go code reads package
globals set once by `flag.Parse`; they are immutable during a scan and are
modelled as one value, as the spec's `ScanConfig`). -/
structure Config where
  minCharacters : Int
  exploreHidden : Bool
  includeBinaryFiles : Bool
  extensions : List String
  extensionsToIgnore : List String
deriving Repr

/-- Go `strings.HasSuffix(s, ext)` on valid UTF-8 strings: byte-level suffix
coincides with code-point-level suffix. -/
def goHasSuffix (s ext : String) : Bool :=
  decide (ext.data <:+ s.data)

/-- Go `strings.HasPrefix(s, pre)` on valid UTF-8 strings. -/
def goHasPre (s pre : String) : Bool :=
  decide (pre.data <+: s.data)

/-- Go `strings.TrimPrefix(s, pre)`. -/
def goTrimPre (s pre : String) : String :=
  if pre.data <+: s.data then String.mk (s.data.drop pre.data.length) else s

/-- `isFileHidden`: `"."` is never hidden; after stripping a leading `"./"`,
hidden iff the name starts with `"."` or equals `"node_modules"`. -/
def isFileHidden (filename : String) : Bool :=
  if filename = "." then false
  else
    let f := goTrimPre filename "./"
    goHasPre f "." || f = "node_modules"

/-- `isFileIncluded`: a deny-suffix match excludes; otherwise an empty allow
list includes everything; otherwise an allow-suffix match is required. -/
def isFileIncluded (cfg : Config) (filename : String) : Bool :=
  if cfg.extensionsToIgnore.any (fun ext => goHasSuffix filename ext) then false
  else if cfg.extensions.isEmpty then true
  else cfg.extensions.any (fun ext => goHasSuffix filename ext)

/-- One line of a file, modelled by what the Go scanning loop computes from
it: `valid` is `utf8.ValidString` of the `strings.TrimSpace`d text and
`fields` is `strings.Fields` of it (its whitespace-separated tokens). -/
structure Line where
  valid : Bool
  fields : List String
deriving DecidableEq, Repr

/-- A model filesystem entry: a regular file with its lines, or a directory
with its entries.  Each node carries its base name (`fileInfo.Name()`). -/
inductive FSNode where
  | file (name : String) (lines : List Line)
  | dir (name : String) (children : List FSNode)
deriving Repr

/-- `fileInfo.Name()` for a node. -/
def nodeName : FSNode → String
  | .file n _ => n
  | .dir n _ => n

/-- One call `entropies.Add(Entropy{entropy(field), fileName, i, field})`
made by the walker; the score is determined by the token (`Line` field), so
an offer is recorded as the remaining triple. -/
structure Offer where
  File : String
  LineNum : Int
  Line : String
deriving DecidableEq, Repr

/-- Go `len(field)`: the byte length of a string, i.e. the sum of the UTF-8
sizes of its code points. -/
def goStrLen (s : String) : Nat :=
  (s.data.map Char.utf8Size).sum

/-- The inner loop over `strings.Fields(line)`: tokens shorter (in bytes)
than `minCharacters` are skipped, every other token is offered. -/
def offersOfLine (cfg : Config) (fileName : String) (ln : Int) (l : Line) :
    List Offer :=
  l.fields.filterMap fun f =>
    if (goStrLen f : Int) < cfg.minCharacters then none
    else some ⟨fileName, ln, f⟩

/-- The scanning loop from line `ln` on, after the first line has been
handled (the binary check only fires at `i == 1`). -/
def scanRest (cfg : Config) (fileName : String) : Int → List Line → List Offer
  | _, [] => []
  | ln, l :: rest => offersOfLine cfg fileName ln l ++ scanRest cfg fileName (ln + 1) rest

/-- The whole per-file scanning loop: on line 1, if binary files are not
included and the line is not valid UTF-8, `break` — no offers at all. -/
def scanLines (cfg : Config) (fileName : String) : List Line → List Offer
  | [] => []
  | l :: rest =>
    if !cfg.includeBinaryFiles && !l.valid then []
    else offersOfLine cfg fileName 1 l ++ scanRest cfg fileName 2 rest

mutual

/-- `readFile(entropies, fileName)`: the offers the walk of this node makes
to the registry.  The hidden check and the include check use the base name
and both return (with a nil error) before the directory branch; a directory
fans out one task per child (modelled by in-order concatenation of the
children's offers — the multiset of offers) and joins; the subsequent
`os.Open`+scan of the directory path itself reads no lines (reading a
directory fd fails immediately, ending the scanner loop), so only the file
case produces offers of its own.  Stat/open errors do not arise in the model
filesystem; every modelled path returns a nil error in Go. -/
def readFile (cfg : Config) (fileName : String) : FSNode → List Offer
  | .file name lines =>
    if isFileHidden name && !cfg.exploreHidden then []
    else if !isFileIncluded cfg name then []
    else scanLines cfg fileName lines
  | .dir name children =>
    if isFileHidden name && !cfg.exploreHidden then []
    else if !isFileIncluded cfg name then []
    else readFileChildren cfg fileName children

/-- The fan-out over a directory's entries: each child is visited at path
`fileName + "/" + child.Name()`. -/
def readFileChildren (cfg : Config) (fileName : String) : List FSNode → List Offer
  | [] => []
  | c :: cs =>
    readFile cfg (fileName ++ "/" ++ nodeName c) c ++ readFileChildren cfg fileName cs

end

/-!  ## Entropy scorer  -/

/-- Go `len(text)` (byte length) for a token modelled as its code points. -/
def goLen (t : List Char) : Nat :=
  (t.map Char.utf8Size).sum

/-- `entropy(text)`: count occurrences per distinct code point (`for _, r :=
range text` iterates code points), then for each distinct code point add
`-res * log2(res)` with `res = count / len(text)` — where `len(text)` is the
BYTE length of the Go string — skipping a `res` equal to 0.  `float64`
arithmetic is modelled over `ℝ` with exact rational `res`; the iteration
order of the Go map does not affect the real-valued sum. -/
noncomputable def entropy (text : List Char) : ℝ :=
  (text.dedup.map fun r =>
    let res : ℝ := (text.count r : ℝ) / (goLen text : ℝ)
    if res = 0 then 0 else -(res * Real.logb 2 res)).sum

/-!  ## Sorted-score machinery over `ℚ`

`insSorted v L` inserts `v` into `L` at the leftmost position whose element
is `≤ v` — exactly where `Entropies.Add` inserts (the Go comparator returns
0 on ties, so `slices.BinarySearchFunc` returns the leftmost index whose
element compares `≤` to the target).  -/

def insSorted (v : ℚ) (L : List ℚ) : List ℚ :=
  L.takeWhile (fun x => decide (v < x)) ++ v :: L.dropWhile (fun x => decide (v < x))

/-- A descending insertion sort: the single-threaded reference
"sort"-half of sort-then-truncate. -/
def sortDesc : List ℚ → List ℚ
  | [] => []
  | x :: xs => insSorted x (sortDesc xs)

/-- The leftmost index of an entry whose score is `≤ v` (the length of the
strict `v <`-prefix): the insertion index computed by `Entropies.Add` on a
sorted slice. -/
def leftmostLE (xs : List Entropy) (v : ℚ) : Nat :=
  (xs.takeWhile (fun a => decide (v < a.Entropy))).length

/-!  ## The single-threaded sort-then-truncate reference (claim C1)  -/

/-- The offered scores that are strictly positive (a score `≤ 0` — which for
entropy values means exactly 0 — never displaces the zero-score sentinels or
any retained entry). -/
def posScores (offers : List Entropy) : List ℚ :=
  (offers.map Entropy.Entropy).filter (fun x => decide (0 < x))

/-- The sorted pool: the positive offered scores together with the `K`
sentinel zeros the registry starts from, in descending order. -/
def specPool (K : Nat) (offers : List Entropy) : List ℚ :=
  sortDesc (posScores offers ++ List.replicate K 0)

/-- The sort-then-truncate reference at score level: the `K` largest scores
of the pool in descending order. -/
def specTopK (K : Nat) (offers : List Entropy) : List ℚ :=
  (specPool K offers).take K

/-!  ## The claim-level sort-then-truncate over findings (for C1)  -/

/-- Descending insertion of a finding by score (one possible tie policy of
the claims' single-threaded reference; the counterexample below does not
depend on the tie policy). -/
def insFindingDesc (e : Entropy) : List Entropy → List Entropy
  | [] => [e]
  | x :: xs =>
    if x.Entropy ≤ e.Entropy then e :: x :: xs else x :: insFindingDesc e xs

/-- Descending sort of findings by score. -/
def sortFindingsDesc : List Entropy → List Entropy
  | [] => []
  | x :: xs => insFindingDesc x (sortFindingsDesc xs)

/-- The claims' single-threaded reference: sort the offered findings by
descending score, truncate to the first `K`. -/
def sortThenTruncate (K : Nat) (offers : List Entropy) : List Entropy :=
  (sortFindingsDesc offers).take K

/-- Example configurations and nodes used by the walker counterexamples and
witnesses. -/
def cfgC7 : Config := ⟨1, false, false, [], [".go"]⟩

def childC7 : FSNode := FSNode.file "a.txt" [⟨true, ["secretbase64token"]⟩]

def cfgC8 : Config := ⟨1, false, false, [], []⟩


/-!  ## Generic list lemmas  -/

theorem take_tw_length (p : α → Bool) (l : List α) :
    l.take (l.takeWhile p).length = l.takeWhile p := by
  induction l with
  | nil => rfl
  | cons x xs ih =>
    by_cases h : p x
    · simp [List.takeWhile_cons, h, ih]
    · simp [List.takeWhile_cons, h]

theorem drop_tw_length (p : α → Bool) (l : List α) :
    l.drop (l.takeWhile p).length = l.dropWhile p := by
  induction l with
  | nil => rfl
  | cons x xs ih =>
    by_cases h : p x
    · simp [List.takeWhile_cons, List.dropWhile_cons, h, ih]
    · simp [List.takeWhile_cons, List.dropWhile_cons, h]

theorem tw_length_le (p : α → Bool) (l : List α) :
    (l.takeWhile p).length ≤ l.length :=
  (List.takeWhile_sublist p).length_le

theorem tw_getD_true (p : α → Bool) (l : List α) (d : α) (k : Nat)
    (hk : k < (l.takeWhile p).length) : p (l.getD k d) = true := by
  induction l generalizing k with
  | nil => simp at hk
  | cons x xs ih =>
    by_cases h : p x
    · cases k with
      | zero => simpa using h
      | succ k =>
        simp only [List.takeWhile_cons, h, if_true, List.length_cons,
          Nat.succ_lt_succ_iff] at hk
        simpa using ih k hk
    · simp [List.takeWhile_cons, h] at hk

theorem tw_getD_false (p : α → Bool) (l : List α) (d : α)
    (hk : (l.takeWhile p).length < l.length) :
    p (l.getD (l.takeWhile p).length d) = false := by
  induction l with
  | nil => simp at hk
  | cons x xs ih =>
    by_cases h : p x
    · simp only [List.takeWhile_cons, h, if_true, List.length_cons,
        Nat.succ_lt_succ_iff] at hk
      simpa [List.takeWhile_cons, h] using ih hk
    · simp [List.takeWhile_cons, h]

theorem takeWhile_append_all (p : α → Bool) (l₁ l₂ : List α)
    (h : ∀ a ∈ l₁, p a = true) :
    (l₁ ++ l₂).takeWhile p = l₁ ++ l₂.takeWhile p := by
  induction l₁ with
  | nil => rfl
  | cons x xs ih =>
    have hx : p x = true := h x (by simp)
    simp only [List.cons_append, List.takeWhile_cons, hx, if_true]
    rw [ih fun a ha => h a (by simp [ha])]

theorem dropWhile_append_all (p : α → Bool) (l₁ l₂ : List α)
    (h : ∀ a ∈ l₁, p a = true) :
    (l₁ ++ l₂).dropWhile p = l₂.dropWhile p := by
  induction l₁ with
  | nil => rfl
  | cons x xs ih =>
    have hx : p x = true := h x (by simp)
    simp only [List.cons_append, List.dropWhile_cons, hx, if_true]
    exact ih fun a ha => h a (by simp [ha])

theorem getD_map (f : α → β) (l : List α) (d : α) (k : Nat) :
    (l.map f).getD k (f d) = f (l.getD k d) := by
  induction l generalizing k with
  | nil => rfl
  | cons x xs ih => cases k with
    | zero => rfl
    | succ k => simpa using ih k

theorem getD_take_lt (l : List α) (d : α) (n k : Nat) (hk : k < n) :
    (l.take n).getD k d = l.getD k d := by
  induction l generalizing n k with
  | nil => simp
  | cons x xs ih =>
    cases n with
    | zero => omega
    | succ n => cases k with
      | zero => rfl
      | succ k => simpa using ih n k (by omega)

theorem take_eq_replicate (l : List α) (d v : α) (n : Nat)
    (hn : n ≤ l.length) (h : ∀ j, j < n → l.getD j d = v) :
    l.take n = List.replicate n v := by
  induction l generalizing n with
  | nil => simp_all
  | cons x xs ih =>
    cases n with
    | zero => rfl
    | succ n =>
      have hx : x = v := h 0 (by omega)
      simp only [List.take_succ_cons, List.replicate_succ, hx]
      exact congrArg _ (ih n (by simpa using hn) fun j hj => h (j + 1) (by omega))

theorem dropLast_append_cons (l₁ : List α) (a : α) (l₂ : List α) :
    (l₁ ++ a :: l₂).dropLast = l₁ ++ (a :: l₂).dropLast := by
  induction l₁ with
  | nil => rfl
  | cons x xs ih =>
    have hne : xs ++ a :: l₂ ≠ [] := by simp
    simp [List.dropLast_cons_of_ne_nil hne, ih]

theorem dropLast_take (l : List α) (m : Nat) (hm : m ≤ l.length) :
    (l.take m).dropLast = l.take (m - 1) := by
  rw [List.dropLast_eq_take, List.length_take, List.take_take]
  congr 1
  omega

theorem sorted_getD_le (l : List ℚ) (d : ℚ) (i j : Nat)
    (hs : List.Sorted (· ≥ ·) l) (hij : i ≤ j) (hj : j < l.length) :
    l.getD j d ≤ l.getD i d := by
  rcases Nat.eq_or_lt_of_le hij with rfl | hlt
  · exact le_refl _
  · have hi : i < l.length := lt_trans hlt hj
    have := (List.pairwise_iff_get.mp hs) ⟨i, hi⟩ ⟨j, hj⟩ hlt
    rw [List.getD_eq_getElem l d hj, List.getD_eq_getElem l d hi]
    simpa using this

theorem take_cons_of_pos (a : α) (l : List α) (n : Nat) (hn : 0 < n) :
    (a :: l).take n = a :: l.take (n - 1) := by
  cases n with
  | zero => omega
  | succ n => simp

theorem length_insertAt (i : Nat) (a : α) (l : List α) (hi : i ≤ l.length) :
    (insertAt i a l).length = l.length + 1 := by
  simp [insertAt, List.length_take, List.length_drop]
  omega

theorem map_insertAt (f : α → β) (i : Nat) (a : α) (l : List α) :
    (insertAt i a l).map f = insertAt i (f a) (l.map f) := by
  simp [insertAt, ← List.map_take, ← List.map_drop]

theorem insSorted_perm (v : ℚ) (L : List ℚ) : (insSorted v L).Perm (v :: L) := by
  unfold insSorted
  calc (L.takeWhile (fun x => decide (v < x)) ++
          v :: L.dropWhile (fun x => decide (v < x))).Perm
        (v :: (L.takeWhile (fun x => decide (v < x)) ++
          L.dropWhile (fun x => decide (v < x)))) := List.perm_middle
    _ = v :: L := by rw [List.takeWhile_append_dropWhile]

theorem insSorted_length (v : ℚ) (L : List ℚ) :
    (insSorted v L).length = L.length + 1 := by
  simpa using (insSorted_perm v L).length_eq

theorem insSorted_sorted (v : ℚ) (L : List ℚ) (hs : List.Sorted (· ≥ ·) L) :
    List.Sorted (· ≥ ·) (insSorted v L) := by
  induction L with
  | nil => simp [insSorted]
  | cons x xs ih =>
    have hx := List.sorted_cons.mp hs
    by_cases h : v < x
    · have : insSorted v (x :: xs) = x :: insSorted v xs := by
        simp [insSorted, List.takeWhile_cons, List.dropWhile_cons, h]
      rw [this]
      refine List.sorted_cons.mpr ⟨?_, ih hx.2⟩
      intro b hb
      have hb' := (insSorted_perm v xs).mem_iff.mp hb
      rcases List.mem_cons.mp hb' with rfl | hbxs
      · exact le_of_lt h
      · exact hx.1 b hbxs
    · have : insSorted v (x :: xs) = v :: x :: xs := by
        simp [insSorted, List.takeWhile_cons, List.dropWhile_cons, h]
      rw [this]
      refine List.sorted_cons.mpr ⟨?_, hs⟩
      intro b hb
      have hxv : x ≤ v := le_of_not_lt h
      rcases List.mem_cons.mp hb with rfl | hbxs
      · exact hxv
      · exact le_trans (hx.1 b hbxs) hxv

theorem sortDesc_sorted (l : List ℚ) : List.Sorted (· ≥ ·) (sortDesc l) := by
  induction l with
  | nil => simp [sortDesc]
  | cons x xs ih => exact insSorted_sorted x (sortDesc xs) ih

theorem sortDesc_perm (l : List ℚ) : (sortDesc l).Perm l := by
  induction l with
  | nil => exact List.Perm.refl _
  | cons x xs ih => exact (insSorted_perm x (sortDesc xs)).trans (ih.cons x)

theorem sorted_unique (l₁ l₂ : List ℚ) (hp : l₁.Perm l₂)
    (h₁ : List.Sorted (· ≥ ·) l₁) (h₂ : List.Sorted (· ≥ ·) l₂) : l₁ = l₂ :=
  List.eq_of_perm_of_sorted hp h₁ h₂

theorem sortDesc_replicate (n : Nat) (v : ℚ) :
    sortDesc (List.replicate n v) = List.replicate n v := by
  refine sorted_unique _ _ (sortDesc_perm _) (sortDesc_sorted _) ?_
  exact List.pairwise_replicate.mpr (Or.inr (le_refl v))

/-- Inserting a value that does not beat the `K`-th largest of a sorted list
does not change the first `K` elements (as a list of values: a tie inside
the first `K` elements forces a constant run of ties down to position
`K-1`). -/
theorem take_insSorted_of_le (S : List ℚ) (K : Nat) (v : ℚ)
    (hs : List.Sorted (· ≥ ·) S) (hK : 0 < K) (hKlen : K ≤ S.length)
    (hv : v ≤ S.getD (K - 1) 0) :
    (insSorted v S).take K = S.take K := by
  have hS : S.takeWhile (fun x => decide (v < x)) ++
      S.dropWhile (fun x => decide (v < x)) = S :=
    List.takeWhile_append_dropWhile _ _
  set A := S.takeWhile (fun x => decide (v < x)) with hA
  set Bt := S.dropWhile (fun x => decide (v < x)) with hB
  by_cases hpK : K ≤ A.length
  · rw [insSorted, ← hA, ← hB, List.take_append_of_le_length hpK, ← hS,
      List.take_append_of_le_length hpK]
  · push_neg at hpK
    have hplen : A.length < S.length := lt_of_lt_of_le hpK hKlen
    have hBlen : Bt.length = S.length - A.length := by
      have := congrArg List.length hS
      simp at this
      omega
    have hpredF : (fun x => decide (v < x)) (S.getD A.length 0) = false :=
      tw_getD_false _ S 0 hplen
    have hple : S.getD A.length 0 ≤ v := by
      simpa using hpredF
    have hconst : ∀ j, A.length ≤ j → j < K → S.getD j 0 = v := by
      intro j hj1 hj2
      have hup : S.getD j 0 ≤ v :=
        le_trans (sorted_getD_le S 0 A.length j hs hj1 (by omega)) hple
      have hdown : v ≤ S.getD j 0 :=
        le_trans hv (sorted_getD_le S 0 j (K - 1) hs (by omega) (by omega))
      exact le_antisymm hup hdown
    have hBgetD : ∀ j, Bt.getD j 0 = S.getD (A.length + j) 0 := by
      intro j
      conv_rhs => rw [← hS]
      rw [List.getD_append_right A Bt 0 (A.length + j) (by omega)]
      congr 1
      omega
    have hBconst : ∀ j, j < K - A.length → Bt.getD j 0 = v := by
      intro j hj
      rw [hBgetD j]
      exact hconst (A.length + j) (by omega) (by omega)
    have htakeB : Bt.take (K - A.length) = List.replicate (K - A.length) v :=
      take_eq_replicate Bt 0 v (K - A.length) (by omega) hBconst
    have htakeB' : Bt.take (K - A.length - 1) = List.replicate (K - A.length - 1) v :=
      take_eq_replicate Bt 0 v (K - A.length - 1) (by omega)
        fun j hj => hBconst j (by omega)
    have hKA : K - A.length = (K - A.length - 1) + 1 := by omega
    calc (insSorted v S).take K
        = A.take K ++ (v :: Bt).take (K - A.length) := by
          rw [insSorted, ← hA, ← hB, List.take_append_eq_append_take]
      _ = A ++ (v :: Bt).take (K - A.length) := by
          rw [List.take_of_length_le (le_of_lt hpK)]
      _ = A ++ v :: Bt.take (K - A.length - 1) := by
          rw [take_cons_of_pos v Bt (K - A.length) (by omega)]
      _ = A ++ v :: List.replicate (K - A.length - 1) v := by rw [htakeB']
      _ = A ++ List.replicate (K - A.length) v := by
          rw [← List.replicate_succ, ← hKA]
      _ = A ++ Bt.take (K - A.length) := by rw [htakeB]
      _ = A.take K ++ Bt.take (K - A.length) := by
          rw [List.take_of_length_le (le_of_lt hpK)]
      _ = S.take K := by rw [← List.take_append_eq_append_take, hS]

/-- Inserting a value that beats the `K`-th largest of a sorted list: the
first `K` elements of the result are obtained by inserting into the first
`K` elements and dropping the last one — exactly the in-place
shift-and-overwrite `Entropies.Add` performs on the slice. -/
theorem take_insSorted_of_gt (S : List ℚ) (K : Nat) (v : ℚ)
    (hs : List.Sorted (· ≥ ·) S) (hK : 0 < K) (hKlen : K ≤ S.length)
    (hv : S.getD (K - 1) 0 < v) :
    (insSorted v S).take K = (insSorted v (S.take K)).dropLast := by
  have hS : S.takeWhile (fun x => decide (v < x)) ++
      S.dropWhile (fun x => decide (v < x)) = S :=
    List.takeWhile_append_dropWhile _ _
  set A := S.takeWhile (fun x => decide (v < x)) with hA
  set Bt := S.dropWhile (fun x => decide (v < x)) with hB
  have hpK : A.length < K := by
    by_contra hcon
    push_neg at hcon
    have htrue := tw_getD_true (fun x => decide (v < x)) S 0 (K - 1)
      (by rw [← hA]; omega)
    exact absurd (lt_trans hv (of_decide_eq_true htrue)) (lt_irrefl _)
  have hBlen : A.length + Bt.length = S.length := by
    have := congrArg List.length hS
    simpa using this
  have hBpos : 0 < Bt.length := by omega
  have hBne : Bt ≠ [] := List.length_pos.mp hBpos
  obtain ⟨b, Bt', hBt⟩ := List.exists_cons_of_ne_nil hBne
  have hpredF : (fun x => decide (v < x)) (S.getD A.length 0) = false :=
    tw_getD_false (fun x => decide (v < x)) S 0 (by rw [← hA]; omega)
  have hSb : S.getD A.length 0 = b := by
    conv_lhs => rw [← hS]
    rw [List.getD_append_right A Bt 0 A.length (le_refl _)]
    simp [hBt]
  have hbF : (decide (v < b) : Bool) = false := by
    rw [← hSb]
    simpa using hpredF
  have hallA : ∀ a ∈ A, (fun x => decide (v < x)) a = true := by
    intro a ha
    rw [hA] at ha
    exact @List.mem_takeWhile_imp ℚ (fun x => decide (v < x)) S a ha
  have hKA : K - A.length = (K - A.length - 1) + 1 := by omega
  have htakeKS : S.take K = A ++ Bt.take (K - A.length) := by
    conv_lhs => rw [← hS]
    rw [List.take_append_eq_append_take, List.take_of_length_le (le_of_lt hpK)]
  have htakeBt : Bt.take (K - A.length) = b :: Bt'.take (K - A.length - 1) := by
    rw [hBt, take_cons_of_pos b Bt' (K - A.length) (by omega)]
  have hins : insSorted v (S.take K) = A ++ v :: Bt.take (K - A.length) := by
    rw [insSorted, htakeKS, htakeBt]
    rw [takeWhile_append_all _ A _ hallA, dropWhile_append_all _ A _ hallA]
    simp [List.takeWhile_cons, List.dropWhile_cons, hbF]
  calc (insSorted v S).take K
      = A.take K ++ (v :: Bt).take (K - A.length) := by
        rw [insSorted, ← hA, ← hB, List.take_append_eq_append_take]
    _ = A ++ v :: Bt.take (K - A.length - 1) := by
        rw [List.take_of_length_le (le_of_lt hpK),
          take_cons_of_pos v Bt (K - A.length) (by omega)]
    _ = A ++ v :: (Bt.take (K - A.length)).dropLast := by
        rw [dropLast_take Bt (K - A.length) (by omega)]
    _ = (insSorted v (S.take K)).dropLast := by
        rw [hins, dropLast_append_cons]
        have hne : Bt.take (K - A.length) ≠ [] := by
          rw [htakeBt]
          simp
        rw [List.dropLast_cons_of_ne_nil hne]

theorem default_entropy : (default : Entropy).Entropy = 0 := rfl

/-- Scores read through `getD` agree with the mapped score list. -/
theorem scoreAt_eq (xs : List Entropy) (k : Nat) :
    (xs.map Entropy.Entropy).getD k 0 = (xs.getD k default).Entropy := by
  have h := getD_map Entropy.Entropy xs default k
  rwa [default_entropy] at h

/-- Monotonicity of scores along a score-sorted entry list. -/
theorem scoreAt_le (xs : List Entropy) (i j : Nat)
    (hs : List.Sorted (· ≥ ·) (xs.map Entropy.Entropy)) (hij : i ≤ j)
    (hj : j < xs.length) :
    (xs.getD j default).Entropy ≤ (xs.getD i default).Entropy := by
  have h := sorted_getD_le (xs.map Entropy.Entropy) 0 i j hs hij (by simpa using hj)
  rwa [scoreAt_eq, scoreAt_eq] at h

/-- If every index below `i` scores above `v` and every index from `i` on
scores at most `v`, then `i` is the length of the `v <`-prefix. -/
theorem bs_boundary (xs : List Entropy) (v : ℚ) (i : Nat)
    (hi : i ≤ xs.length)
    (h1 : ∀ k, k < i → v < (xs.getD k default).Entropy)
    (h2 : ∀ k, i ≤ k → k < xs.length → (xs.getD k default).Entropy ≤ v) :
    i = (xs.takeWhile (fun a => decide (v < a.Entropy))).length := by
  set B := (xs.takeWhile (fun a => decide (v < a.Entropy))).length with hB
  have hBlen : B ≤ xs.length := by rw [hB]; exact tw_length_le _ _
  rcases lt_trichotomy i B with hlt | heq | hgt
  · exfalso
    have htrue := tw_getD_true (fun a => decide (v < a.Entropy)) xs default i
      (by rw [← hB]; omega)
    have hv : v < (xs.getD i default).Entropy := of_decide_eq_true htrue
    exact absurd (lt_of_le_of_lt (h2 i (le_refl i) (by omega)) hv) (lt_irrefl _)
  · exact heq
  · exfalso
    have hfalse := tw_getD_false (fun a => decide (v < a.Entropy)) xs default
      (by rw [← hB]; omega)
    have hv : ¬ v < (xs.getD B default).Entropy := by
      simpa using hfalse
    exact hv (h1 B hgt)

/-- Correctness of the binary-search loop on a score-sorted list, for any
sufficient fuel. -/
theorem bsLoop_eq (xs : List Entropy) (v : ℚ)
    (hs : List.Sorted (· ≥ ·) (xs.map Entropy.Entropy)) :
    ∀ fuel i j, i ≤ j → j ≤ xs.length → j - i ≤ fuel →
    (∀ k, k < i → v < (xs.getD k default).Entropy) →
    (∀ k, j ≤ k → k < xs.length → (xs.getD k default).Entropy ≤ v) →
    bsLoop xs v fuel i j = (xs.takeWhile (fun a => decide (v < a.Entropy))).length := by
  intro fuel
  induction fuel with
  | zero =>
    intro i j hij hjlen hfuel h1 h2
    have hij' : i = j := by omega
    subst hij'
    exact bs_boundary xs v i hjlen h1 h2
  | succ fuel ih =>
    intro i j hij hjlen hfuel h1 h2
    by_cases hc : i < j
    · have hm1 : i ≤ (i + j) / 2 := by omega
      have hm2 : (i + j) / 2 < j := by omega
      simp only [bsLoop, hc, if_true]
      by_cases hv : v < (xs.getD ((i + j) / 2) default).Entropy
      · rw [if_pos hv]
        refine ih ((i + j) / 2 + 1) j (by omega) hjlen (by omega) ?_ h2
        intro k hk
        refine lt_of_lt_of_le hv ?_
        exact scoreAt_le xs k ((i + j) / 2) hs (by omega) (by omega)
      · rw [if_neg hv]
        refine ih i ((i + j) / 2) hm1 (by omega) (by omega) h1 ?_
        intro k hk hklen
        refine le_trans ?_ (le_of_not_lt hv)
        exact scoreAt_le xs ((i + j) / 2) k hs hk hklen
    · have hij' : i = j := by omega
      subst hij'
      simp only [bsLoop, hc, if_false]
      exact bs_boundary xs v i hjlen h1 h2

/-- `bsearch` on a score-sorted list returns the leftmost index whose score
is `≤ v` (equivalently, the length of the strict `v <`-prefix). -/
theorem bsearch_eq (xs : List Entropy) (v : ℚ)
    (hs : List.Sorted (· ≥ ·) (xs.map Entropy.Entropy)) :
    bsearch xs v = (xs.takeWhile (fun a => decide (v < a.Entropy))).length := by
  refine bsLoop_eq xs v hs xs.length 0 xs.length (by omega) (le_refl _) (by omega)
    ?_ ?_
  · intro k hk
    omega
  · intro k hk hklen
    omega

theorem bsearch_le_length (xs : List Entropy) (v : ℚ)
    (hs : List.Sorted (· ≥ ·) (xs.map Entropy.Entropy)) :
    bsearch xs v ≤ xs.length := by
  rw [bsearch_eq xs v hs]
  exact tw_length_le _ _

theorem map_takeWhile_score (xs : List Entropy) (v : ℚ) :
    (xs.takeWhile (fun a => decide (v < a.Entropy))).map Entropy.Entropy
      = (xs.map Entropy.Entropy).takeWhile (fun x => decide (v < x)) := by
  induction xs with
  | nil => rfl
  | cons x xs ih =>
    by_cases h : v < x.Entropy <;>
      simp [List.takeWhile_cons, h, ih]

theorem map_dropWhile_score (xs : List Entropy) (v : ℚ) :
    (xs.dropWhile (fun a => decide (v < a.Entropy))).map Entropy.Entropy
      = (xs.map Entropy.Entropy).dropWhile (fun x => decide (v < x)) := by
  induction xs with
  | nil => rfl
  | cons x xs ih =>
    by_cases h : v < x.Entropy <;>
      simp [List.dropWhile_cons, h, ih]

theorem leftmostLE_map (xs : List Entropy) (v : ℚ) :
    leftmostLE xs v
      = ((xs.map Entropy.Entropy).takeWhile (fun x => decide (v < x))).length := by
  rw [← map_takeWhile_score]
  simp [leftmostLE]

/-- Mapping the score over the shift-insert equals the sorted-insert of the
score into the score list. -/
theorem insert_scores (xs : List Entropy) (e : Entropy) :
    (insertAt (leftmostLE xs e.Entropy) e xs).map Entropy.Entropy
      = insSorted e.Entropy (xs.map Entropy.Entropy) := by
  unfold insertAt insSorted leftmostLE
  rw [take_tw_length, drop_tw_length]
  simp [map_takeWhile_score, map_dropWhile_score]

/-- `goGet` at the (valid) last index `K - 1` written as `(K : Int) - 1`. -/
theorem goGet_last (xs : List α) (d : α) (K : Nat) (hK : 0 < K)
    (hlen : xs.length = K) :
    goGet xs ((K : Int) - 1) = some (xs.getD (K - 1) d) := by
  have h1 : (K : Int) - 1 = ((K - 1 : Nat) : Int) := by omega
  rw [h1]
  unfold goGet
  rw [if_neg (by omega)]
  have h2 : ((K - 1 : Nat) : Int).toNat = K - 1 := by omega
  rw [h2]
  have h3 : K - 1 < xs.length := by omega
  rw [List.get?_eq_getElem?, List.getElem?_eq_getElem h3,
    List.getD_eq_getElem xs d h3]

/-- On a registry whose slice has its full length (= `maxLength ≥ 1`), the
two guards of `Add` read the same last element, so `Add` is: reject if the
last score is `≥ e`'s, else shift-insert at the binary-search index. -/
theorem Add_eq_branches (es : Registry) (e : Entropy)
    (hlen : es.Entropies.length = es.maxLength) (hK : 0 < es.maxLength) :
    es.Add e =
      if (es.Entropies.getD (es.maxLength - 1) default).Entropy ≥ e.Entropy
      then some es
      else some ⟨(insertAt (bsearch es.Entropies e.Entropy) e es.Entropies).dropLast,
                 es.maxLength⟩ := by
  have h1 : goGet es.Entropies ((es.maxLength : Int) - 1) =
      some (es.Entropies.getD (es.maxLength - 1) default) :=
    goGet_last es.Entropies default es.maxLength hK hlen
  have h2 : goGet es.Entropies ((es.Entropies.length : Int) - 1) =
      some (es.Entropies.getD (es.maxLength - 1) default) := by
    rw [hlen]
    exact h1
  unfold Entropies.Add
  rw [h1, h2]
  dsimp only
  by_cases hc : (es.Entropies.getD (es.maxLength - 1) default).Entropy ≥ e.Entropy
  · rw [if_pos hc, if_pos hc]
  · rw [if_neg hc, if_neg hc]

theorem Add_reject (es : Registry) (e : Entropy)
    (hlen : es.Entropies.length = es.maxLength) (hK : 0 < es.maxLength)
    (hle : e.Entropy ≤ (es.Entropies.getD (es.maxLength - 1) default).Entropy) :
    es.Add e = some es := by
  rw [Add_eq_branches es e hlen hK, if_pos hle]

theorem Add_insert_case (es : Registry) (e : Entropy)
    (hlen : es.Entropies.length = es.maxLength)
    (hs : List.Sorted (· ≥ ·) (es.Entropies.map Entropy.Entropy))
    (hK : 0 < es.maxLength)
    (hgt : (es.Entropies.getD (es.maxLength - 1) default).Entropy < e.Entropy) :
    es.Add e =
      some ⟨(insertAt (leftmostLE es.Entropies e.Entropy) e es.Entropies).dropLast,
            es.maxLength⟩ := by
  rw [Add_eq_branches es e hlen hK, if_neg (not_le.mpr hgt),
    bsearch_eq es.Entropies e.Entropy hs]
  rfl

theorem specPool_sorted (K : Nat) (offers : List Entropy) :
    List.Sorted (· ≥ ·) (specPool K offers) :=
  sortDesc_sorted _

theorem specPool_length (K : Nat) (offers : List Entropy) :
    (specPool K offers).length = (posScores offers).length + K := by
  rw [specPool, (sortDesc_perm _).length_eq]
  simp

theorem specPool_nonneg (K : Nat) (offers : List Entropy) :
    ∀ x ∈ specPool K offers, 0 ≤ x := by
  intro x hx
  have hx' : x ∈ posScores offers ++ List.replicate K 0 :=
    (sortDesc_perm _).mem_iff.mp hx
  rcases List.mem_append.mp hx' with h | h
  · rw [posScores] at h
    exact le_of_lt (of_decide_eq_true
      (@List.of_mem_filter ℚ (fun x => decide (0 < x)) x
        (offers.map Entropy.Entropy) h))
  · rw [List.eq_of_mem_replicate h]

/-- Appending one more offer inserts its score into the pool (when the score
is positive), by uniqueness of sorted lists. -/
theorem specPool_snoc_pos (K : Nat) (offers : List Entropy) (e : Entropy)
    (he : 0 < e.Entropy) :
    specPool K (offers ++ [e]) = insSorted e.Entropy (specPool K offers) := by
  have hpos : posScores (offers ++ [e]) = posScores offers ++ [e.Entropy] := by
    simp [posScores, List.filter_append, List.filter_cons, he]
  refine sorted_unique _ _ ?_ (specPool_sorted _ _)
    (insSorted_sorted _ _ (specPool_sorted _ _))
  have h1 : (specPool K (offers ++ [e])).Perm
      ((posScores offers ++ [e.Entropy]) ++ List.replicate K 0) := by
    rw [specPool, hpos]
    exact sortDesc_perm _
  rw [List.append_assoc, List.singleton_append] at h1
  have h3 : (posScores offers ++ e.Entropy :: List.replicate K 0).Perm
      (e.Entropy :: (posScores offers ++ List.replicate K 0)) :=
    List.perm_middle
  have h4 : (e.Entropy :: (posScores offers ++ List.replicate K 0)).Perm
      (e.Entropy :: specPool K offers) :=
    ((sortDesc_perm _).symm).cons _
  have h5 : (e.Entropy :: specPool K offers).Perm
      (insSorted e.Entropy (specPool K offers)) :=
    (insSorted_perm _ _).symm
  exact ((h1.trans h3).trans h4).trans h5

theorem specPool_snoc_nonpos (K : Nat) (offers : List Entropy) (e : Entropy)
    (he : ¬ 0 < e.Entropy) :
    specPool K (offers ++ [e]) = specPool K offers := by
  have hpos : posScores (offers ++ [e]) = posScores offers := by
    simp [posScores, List.filter_append, List.filter_cons, he]
  rw [specPool, hpos, specPool]

/-- One step of the refinement: if the registry's score list is the
sort-then-truncate reference of the offers so far, one more `Add` keeps it
so (and never panics). -/
theorem spec_step (K : Nat) (hK : 0 < K) (s : List Entropy) (e : Entropy)
    (es : Registry) (hmax : es.maxLength = K)
    (hmap : es.Entropies.map Entropy.Entropy = specTopK K s) :
    ∃ es' : Registry, es.Add e = some es' ∧ es'.maxLength = K ∧
      es'.Entropies.map Entropy.Entropy = specTopK K (s ++ [e]) := by
  have hSsort := specPool_sorted K s
  have hSlen : K ≤ (specPool K s).length := by
    rw [specPool_length]
    omega
  have hlen : es.Entropies.length = K := by
    have := congrArg List.length hmap
    simp only [List.length_map] at this
    rw [this, specTopK, List.length_take]
    omega
  have hlen' : es.Entropies.length = es.maxLength := by rw [hlen, hmax]
  have hsorted : List.Sorted (· ≥ ·) (es.Entropies.map Entropy.Entropy) := by
    rw [hmap, specTopK]
    exact hSsort.sublist (List.take_sublist _ _)
  have hlastv : (es.Entropies.getD (es.maxLength - 1) default).Entropy
      = (specPool K s).getD (K - 1) 0 := by
    rw [← scoreAt_eq, hmap, hmax, specTopK, getD_take_lt _ 0 K (K - 1) (by omega)]
  have hlast0 : 0 ≤ (specPool K s).getD (K - 1) 0 := by
    have hmem : (specPool K s).getD (K - 1) 0 ∈ specPool K s := by
      rw [List.getD_eq_getElem _ 0 (by omega)]
      exact List.getElem_mem _
    exact specPool_nonneg K s _ hmem
  by_cases hc : e.Entropy ≤ (specPool K s).getD (K - 1) 0
  · -- rejected: nothing changes on either side
    refine ⟨es, ?_, hmax, ?_⟩
    · exact Add_reject es e hlen' (by omega) (by rw [hlastv]; exact hc)
    · rw [hmap, specTopK, specTopK]
      by_cases hpos : 0 < e.Entropy
      · rw [specPool_snoc_pos K s e hpos,
          take_insSorted_of_le (specPool K s) K e.Entropy hSsort hK hSlen hc]
      · rw [specPool_snoc_nonpos K s e hpos]
  · -- admitted: insert on both sides
    push_neg at hc
    have hpos : 0 < e.Entropy := lt_of_le_of_lt hlast0 hc
    refine ⟨_, Add_insert_case es e hlen' hsorted (by omega) (by rw [hlastv]; exact hc),
      hmax, ?_⟩
    dsimp only
    rw [List.map_dropLast, insert_scores, hmap]
    have hrhs : specTopK K (s ++ [e])
        = (insSorted e.Entropy ((specPool K s).take K)).dropLast := by
      rw [specTopK, specPool_snoc_pos K s e hpos,
        take_insSorted_of_gt (specPool K s) K e.Entropy hSsort hK hSlen hc]
    rw [hrhs, specTopK]

/-- The fold of `spec_step` over a whole offer sequence. -/
theorem AddAll_spec (K : Nat) (hK : 0 < K) :
    ∀ (rest s : List Entropy) (es : Registry), es.maxLength = K →
    es.Entropies.map Entropy.Entropy = specTopK K s →
    ∃ es' : Registry, es.AddAll rest = some es' ∧ es'.maxLength = K ∧
      es'.Entropies.map Entropy.Entropy = specTopK K (s ++ rest) := by
  intro rest
  induction rest with
  | nil =>
    intro s es hmax hmap
    exact ⟨es, rfl, hmax, by simpa using hmap⟩
  | cons e rest ih =>
    intro s es hmax hmap
    obtain ⟨es1, hAdd, hmax1, hmap1⟩ := spec_step K hK s e es hmax hmap
    obtain ⟨es', hAll, hmax', hmap'⟩ := ih (s ++ [e]) es1 hmax1 hmap1
    refine ⟨es', ?_, hmax', ?_⟩
    · rw [Entropies.AddAll, List.foldlM_cons, hAdd]
      exact hAll
    · rwa [List.append_assoc, List.singleton_append] at hmap'

theorem NewEntropies_specTopK (K : Nat) :
    (NewEntropies K).Entropies.map Entropy.Entropy = specTopK K [] := by
  rw [NewEntropies, specTopK, specPool]
  have hps : posScores [] = [] := rfl
  rw [hps, List.nil_append, sortDesc_replicate]
  simp [List.take_replicate, default_entropy]

/-!  ## Entropy scorer lemmas  -/

theorem length_le_goLen (t : List Char) : t.length ≤ goLen t := by
  induction t with
  | nil => simp [goLen]
  | cons c t ih =>
    have hc := Char.utf8Size_pos c
    have hge : goLen t = (t.map Char.utf8Size).sum := rfl
    rw [hge] at ih
    simp only [goLen, List.map_cons, List.sum_cons, List.length_cons]
    omega

/-- Every accumulated term of `entropy` is non-negative, hence so is the
sum: `res ∈ [0, 1]` makes `log2 res ≤ 0`. -/
theorem entropy_nonneg (t : List Char) : 0 ≤ entropy t := by
  unfold entropy
  apply List.sum_nonneg
  intro x hx
  obtain ⟨r, hr, hfx⟩ := List.mem_map.mp hx
  rw [← hfx]
  dsimp only
  by_cases h0 : ((t.count r : ℝ) / (goLen t : ℝ)) = 0
  · rw [if_pos h0]
  · rw [if_neg h0]
    have hrt : r ∈ t := List.mem_dedup.mp hr
    have hlenpos : 0 < t.length := List.length_pos_of_mem hrt
    have hgpos : 0 < goLen t := lt_of_lt_of_le hlenpos (length_le_goLen t)
    have hgposR : (0 : ℝ) < (goLen t : ℝ) := by exact_mod_cast hgpos
    have hres0 : 0 ≤ (t.count r : ℝ) / (goLen t : ℝ) :=
      div_nonneg (Nat.cast_nonneg _) (le_of_lt hgposR)
    have hcle : t.count r ≤ goLen t :=
      le_trans (List.count_le_length r t) (length_le_goLen t)
    have hres1 : (t.count r : ℝ) / (goLen t : ℝ) ≤ 1 := by
      rw [div_le_one hgposR]
      exact_mod_cast hcle
    have hlog : Real.logb 2 ((t.count r : ℝ) / (goLen t : ℝ)) ≤ 0 :=
      Real.logb_nonpos (by norm_num) hres0 hres1
    have hmul : (t.count r : ℝ) / (goLen t : ℝ)
        * Real.logb 2 ((t.count r : ℝ) / (goLen t : ℝ)) ≤ 0 :=
      mul_nonpos_iff.mpr (Or.inl ⟨hres0, hlog⟩)
    linarith

/-- Concrete evaluation exposing the byte-length division: for the single
two-byte code point U+00E9 the code computes `res = 1/2`, not `1`, and the
result is `1/2`, not `0`. -/
theorem entropy_eacute : entropy ['é'] = 1 / 2 := by
  have hc : (['é'] : List Char).count 'é' = 1 := by decide
  have hg : goLen (['é'] : List Char) = 2 := by decide
  have hd : (['é'] : List Char).dedup = ['é'] := by decide
  unfold entropy
  rw [hd, List.map_cons, List.map_nil, List.sum_cons, List.sum_nil, add_zero]
  dsimp only
  rw [hc, hg]
  have hres : ((1 : Nat) : ℝ) / ((2 : Nat) : ℝ) = 1 / 2 := by norm_num
  rw [hres, if_neg (by norm_num : ¬(1 / 2 : ℝ) = 0)]
  rw [one_div, Real.logb_inv, Real.logb_self_eq_one (by norm_num)]
  norm_num

/-!  ## Claim theorems  -/

/-- C1, counterexample: for capacity `K = 1` and the single offered finding
of score 0 (e.g. the token `"aaaaaaaa"`), the code retains the zero-value
sentinel — not the offered finding — while sort-then-truncate over the
offered multiset retains the offered finding; so the final slice does not
equal the top-K of the offers (no tie-reordering can repair a slice that
does not even contain the offered finding). -/
theorem C1_counterexample :
    Entropies.AddAll (NewEntropies 1) [⟨0, "f", 1, "aaaaaaaa"⟩]
      = some (NewEntropies 1) ∧
    sortThenTruncate 1 [⟨0, "f", 1, "aaaaaaaa"⟩] = [⟨0, "f", 1, "aaaaaaaa"⟩] ∧
    (NewEntropies 1).Entropies ≠ sortThenTruncate 1 [⟨0, "f", 1, "aaaaaaaa"⟩] := by
  decide

/-- C1, amended: for capacity `K ≥ 1` and any finite sequence of `Add`
calls, no call fails, and the score sequence of the final `Entropies` slice
equals the first `K` of the descending sort of the strictly positive
offered scores padded with the `K` sentinel zeros (`specTopK`) — the
single-threaded sort-then-truncate over the offered multiset restricted to
positive scores, with sentinel padding; which finding is retained among
equal scores may differ from a given sequential sort's choice. -/
theorem C1_amended_topK_refinement (K : Nat) (offers : List Entropy)
    (hK : 0 < K) :
    ∃ es' : Registry, (NewEntropies K).AddAll offers = some es' ∧
      es'.Entropies.map Entropy.Entropy = specTopK K offers := by
  obtain ⟨es', h1, _h2, h3⟩ :=
    AddAll_spec K hK offers [] (NewEntropies K) rfl (NewEntropies_specTopK K)
  exact ⟨es', h1, by simpa using h3⟩

/-- Witness for C1 at `K = 2` and three offers. -/
theorem C1_amended_topK_refinement_witness :
    ∃ es' : Registry,
      (NewEntropies 2).AddAll
        [⟨1, "a", 1, "x"⟩, ⟨3, "b", 1, "y"⟩, ⟨2, "c", 1, "z"⟩] = some es' ∧
      es'.Entropies.map Entropy.Entropy
        = specTopK 2 [⟨1, "a", 1, "x"⟩, ⟨3, "b", 1, "y"⟩, ⟨2, "c", 1, "z"⟩] :=
  C1_amended_topK_refinement 2
    [⟨1, "a", 1, "x"⟩, ⟨3, "b", 1, "y"⟩, ⟨2, "c", 1, "z"⟩] (by decide)

/-- C2: the `entropy` function counts occurrences per code point but divides
by `len(text)`, the BYTE length of the Go string, not the number of code
points.  For the single two-byte code point U+00E9 the relative frequency
computed is `1/2`, and the result is `1/2`, not the `0.0` the claim
requires for a single distinct code point. -/
theorem C2_entropy_byte_length_bug :
    entropy [Char.ofNat 233] = 1 / 2 ∧ ((1 : ℝ) / 2 ≠ 0) ∧
    ([Char.ofNat 233] : List Char).dedup.length = 1 ∧
    goLen [Char.ofNat 233] = 2 := by
  refine ⟨?_, by norm_num, by decide, by decide⟩
  have h : ([Char.ofNat 233] : List Char) = ['é'] := by decide
  rw [h]
  exact entropy_eacute

/-- C3: with capacity `K = 0`, `NewEntropies 0` has an empty slice and every
`Add` call evaluates `es.Entropies[es.maxLength-1] = es.Entropies[-1]`,
an out-of-range index — a runtime panic (modelled by `none`), not the no-op
the claim states. -/
theorem C3_capacity_zero_add_panics (e : Entropy) :
    (NewEntropies 0).Add e = none := rfl

/-- C4, counterexample: the slots of a fresh registry are zero-value
findings with score `0`, not a `-∞`-like marker: a finding with the finite
score `0` (an attainable entropy value) offered to a fresh, entirely
not-yet-full registry of capacity 1 is NOT admitted — the registry is left
unchanged and does not contain it. -/
theorem C4_counterexample :
    (NewEntropies 1).Add ⟨0, "f", 1, "aaaaaaaa"⟩ = some (NewEntropies 1) ∧
    (⟨0, "f", 1, "aaaaaaaa"⟩ : Entropy) ∉ (NewEntropies 1).Entropies ∧
    (NewEntropies 1).Entropies = [⟨0, "", 0, ""⟩] := by
  decide

/-- C4, amended: a fresh registry of capacity `K` has all `K` slots equal to
the zero-value `Entropy` (score `0`, the lowest attainable entropy score),
the descending-order invariant holds from creation, and any finding with a
strictly positive score offered to a fresh registry is admitted. -/
theorem C4_amended_zero_sentinel (K : Nat) (e : Entropy) :
    (NewEntropies K).Entropies = List.replicate K ⟨0, "", 0, ""⟩ ∧
    List.Sorted (· ≥ ·) ((NewEntropies K).Entropies.map Entropy.Entropy) ∧
    (0 < K → 0 < e.Entropy →
      ∃ es' : Registry, (NewEntropies K).Add e = some es' ∧
        e ∈ es'.Entropies) := by
  have hrepl : (NewEntropies K).Entropies = List.replicate K (default : Entropy) :=
    rfl
  have hsorted : List.Sorted (· ≥ ·) ((NewEntropies K).Entropies.map Entropy.Entropy) := by
    rw [hrepl, List.map_replicate, default_entropy]
    exact List.pairwise_replicate.mpr (Or.inr (le_refl (0 : ℚ)))
  refine ⟨hrepl, hsorted, ?_⟩
  intro hK hpos
  have hlen : (NewEntropies K).Entropies.length = (NewEntropies K).maxLength := by
    rw [hrepl]
    simp [NewEntropies]
  have hlast : ((NewEntropies K).Entropies.getD
      ((NewEntropies K).maxLength - 1) default).Entropy = 0 := by
    rw [hrepl]
    have hidx : K - 1 < (List.replicate K (default : Entropy)).length := by
      simp
      omega
    rw [show (NewEntropies K).maxLength = K from rfl,
      List.getD_eq_getElem _ default hidx, List.getElem_replicate, default_entropy]
  have hadd := Add_insert_case (NewEntropies K) e hlen hsorted
    (by simpa [NewEntropies] using hK) (by rw [hlast]; exact hpos)
  refine ⟨_, hadd, ?_⟩
  have hlm : leftmostLE (NewEntropies K).Entropies e.Entropy = 0 := by
    rw [hrepl, leftmostLE]
    obtain ⟨K', rfl⟩ := Nat.exists_eq_add_of_lt hK
    rw [show 0 + K' + 1 = K' + 1 by omega, List.replicate_succ,
      List.takeWhile_cons]
    rw [show (decide (e.Entropy < (default : Entropy).Entropy)) = false from
      decide_eq_false (by rw [default_entropy]; exact lt_asymm hpos)]
    simp
  dsimp only
  rw [hlm]
  have hinsert : insertAt 0 e (NewEntropies K).Entropies
      = e :: (NewEntropies K).Entropies := by
    simp [insertAt]
  rw [hinsert]
  have hne : (NewEntropies K).Entropies ≠ [] := by
    rw [hrepl]
    obtain ⟨K', rfl⟩ := Nat.exists_eq_add_of_lt hK
    simp [List.replicate_succ]
  rw [List.dropLast_cons_of_ne_nil hne]
  exact List.mem_cons_self e _

/-- Witness for C4 at `K = 1` and a positive-score finding. -/
theorem C4_amended_zero_sentinel_witness :
    (NewEntropies 1).Entropies = List.replicate 1 ⟨0, "", 0, ""⟩ ∧
    List.Sorted (· ≥ ·) ((NewEntropies 1).Entropies.map Entropy.Entropy) ∧
    ∃ es' : Registry, (NewEntropies 1).Add ⟨1, "w", 1, "tok"⟩ = some es' ∧
      (⟨1, "w", 1, "tok"⟩ : Entropy) ∈ es'.Entropies := by
  have h := C4_amended_zero_sentinel 1 ⟨1, "w", 1, "tok"⟩
  exact ⟨h.1, h.2.1, h.2.2 (by decide) (by decide)⟩

/-- C5, counterexample: for the sorted registry `[3, 1]` (capacity 2) and an
offered finding of score 3, the claim's insertion index — the leftmost
position whose score is strictly less than 3 — is 1, which would give
`[⟨3,"a"⟩, ⟨3,"c"⟩]`; but `slices.BinarySearchFunc`'s comparator returns 0
on ties, so the code inserts at index 0, before the equal-score entry,
giving `[⟨3,"c"⟩, ⟨3,"a"⟩]`. -/
theorem C5_counterexample :
    (⟨[⟨3, "a", 1, "x"⟩, ⟨1, "b", 2, "y"⟩], 2⟩ : Registry).Add ⟨3, "c", 3, "z"⟩
      = some ⟨[⟨3, "c", 3, "z"⟩, ⟨3, "a", 1, "x"⟩], 2⟩ ∧
    (([⟨3, "a", 1, "x"⟩, ⟨1, "b", 2, "y"⟩] : List Entropy).takeWhile
        (fun a => decide ((3 : ℚ) ≤ a.Entropy))).length = 1 ∧
    (insertAt 1 (⟨3, "c", 3, "z"⟩ : Entropy)
        ([⟨3, "a", 1, "x"⟩, ⟨1, "b", 2, "y"⟩] : List Entropy)).dropLast
      = [⟨3, "a", 1, "x"⟩, ⟨3, "c", 3, "z"⟩] ∧
    ([⟨3, "c", 3, "z"⟩, ⟨3, "a", 1, "x"⟩] : List Entropy)
      ≠ [⟨3, "a", 1, "x"⟩, ⟨3, "c", 3, "z"⟩] := by
  decide

/-- C5, amended: when `Add` admits a finding `f` (the last slot's score is
strictly below `f`'s), the insertion index is the leftmost position whose
current score is less than or EQUAL to `f`'s score — a tying finding is
placed before the existing equal-score entries — and the entries from that
index through the second-to-last slot shift one position right, dropping
the previous last entry. -/
theorem C5_amended_insert_before_ties (es : Registry) (e : Entropy)
    (hlen : es.Entropies.length = es.maxLength)
    (hsorted : List.Sorted (· ≥ ·) (es.Entropies.map Entropy.Entropy))
    (hK : 0 < es.maxLength)
    (hbeats : (es.Entropies.getD (es.maxLength - 1) default).Entropy
      < e.Entropy) :
    es.Add e = some ⟨(insertAt (leftmostLE es.Entropies e.Entropy) e
      es.Entropies).dropLast, es.maxLength⟩ :=
  Add_insert_case es e hlen hsorted hK hbeats

/-- Witness for C5 at the tie scenario of the counterexample. -/
theorem C5_amended_insert_before_ties_witness :
    (⟨[⟨3, "a", 1, "x"⟩, ⟨1, "b", 2, "y"⟩], 2⟩ : Registry).Add ⟨3, "c", 3, "z"⟩
      = some ⟨(insertAt
          (leftmostLE [⟨3, "a", 1, "x"⟩, ⟨1, "b", 2, "y"⟩] 3)
          ⟨3, "c", 3, "z"⟩
          [⟨3, "a", 1, "x"⟩, ⟨1, "b", 2, "y"⟩]).dropLast, 2⟩ :=
  C5_amended_insert_before_ties
    ⟨[⟨3, "a", 1, "x"⟩, ⟨1, "b", 2, "y"⟩], 2⟩ ⟨3, "c", 3, "z"⟩
    (by decide) (by decide) (by decide) (by decide)

/-- C6: every completing `Add` call — admitting or rejecting — preserves the
registry invariant: the slice keeps its exact length (`maxLength`, i.e. K)
and stays sorted in non-increasing score order, assuming the invariant held
before the call. -/
theorem C6_add_preserves_invariant (es : Registry) (e : Entropy)
    (es' : Registry)
    (hlen : es.Entropies.length = es.maxLength)
    (hsorted : List.Sorted (· ≥ ·) (es.Entropies.map Entropy.Entropy))
    (hAdd : es.Add e = some es') :
    es'.maxLength = es.maxLength ∧
    es'.Entropies.length = es.maxLength ∧
    List.Sorted (· ≥ ·) (es'.Entropies.map Entropy.Entropy) := by
  rcases Nat.eq_zero_or_pos es.maxLength with hK0 | hK
  · exfalso
    unfold Entropies.Add at hAdd
    rw [hK0] at hAdd
    simp [goGet] at hAdd
  · rw [Add_eq_branches es e hlen hK] at hAdd
    by_cases hc : (es.Entropies.getD (es.maxLength - 1) default).Entropy
        ≥ e.Entropy
    · rw [if_pos hc] at hAdd
      injection hAdd with h
      subst h
      exact ⟨rfl, hlen, hsorted⟩
    · rw [if_neg hc] at hAdd
      injection hAdd with h
      subst h
      have hb : bsearch es.Entropies e.Entropy
          = leftmostLE es.Entropies e.Entropy := by
        rw [bsearch_eq es.Entropies e.Entropy hsorted, leftmostLE]
      have hble : bsearch es.Entropies e.Entropy ≤ es.Entropies.length :=
        bsearch_le_length es.Entropies e.Entropy hsorted
      refine ⟨rfl, ?_, ?_⟩
      · dsimp only
        rw [List.length_dropLast, length_insertAt _ _ _ hble]
        omega
      · dsimp only
        rw [List.map_dropLast, hb, insert_scores]
        exact (insSorted_sorted _ _ hsorted).sublist (List.dropLast_sublist _)

/-- Witness for C6: an admitting call on a sorted two-slot registry. -/
theorem C6_add_preserves_invariant_witness :
    (⟨[⟨3, "c", 3, "z"⟩, ⟨2, "a", 1, "x"⟩], 2⟩ : Registry).maxLength = 2 ∧
    (⟨[⟨3, "c", 3, "z"⟩, ⟨2, "a", 1, "x"⟩], 2⟩ : Registry).Entropies.length = 2 ∧
    List.Sorted (· ≥ ·)
      ((⟨[⟨3, "c", 3, "z"⟩, ⟨2, "a", 1, "x"⟩], 2⟩ : Registry).Entropies.map
        Entropy.Entropy) := by
  have h := C6_add_preserves_invariant
    ⟨[⟨2, "a", 1, "x"⟩, ⟨1, "b", 2, "y"⟩], 2⟩ ⟨3, "c", 3, "z"⟩
    ⟨[⟨3, "c", 3, "z"⟩, ⟨2, "a", 1, "x"⟩], 2⟩
    (by decide) (by decide) (by decide)
  exact h

/-- C7, counterexample: a directory named `foo.go` fails the deny-suffix
filter (deny list `[".go"]`) and is not hidden; the claim says its children
are still descended into, but `readFile` checks `isFileIncluded` before the
directory branch and returns immediately: the walk contributes nothing,
although the child file alone would contribute a finding. -/
theorem C7_counterexample :
    isFileHidden "foo.go" = false ∧
    isFileIncluded cfgC7 "foo.go" = false ∧
    readFile cfgC7 "foo.go" (FSNode.dir "foo.go" [childC7]) = [] ∧
    readFile cfgC7 "foo.go/a.txt" childC7
      = [⟨"foo.go/a.txt", 1, "secretbase64token"⟩] := by
  decide

/-- C7, amended: a directory (like any entry) whose name fails the
include/deny suffix filter is pruned entirely: `readFile` returns — with a
nil error — before the directory branch, so the children are never
descended into and the subtree contributes no findings. -/
theorem C7_amended_excluded_dir_pruned (cfg : Config) (fileName name : String)
    (children : List FSNode) (hinc : isFileIncluded cfg name = false) :
    readFile cfg fileName (FSNode.dir name children) = [] := by
  simp only [readFile, hinc]
  split <;> rfl

/-- Witness for C7 on the counterexample directory. -/
theorem C7_amended_excluded_dir_pruned_witness :
    readFile cfgC7 "foo.go" (FSNode.dir "foo.go" [childC7]) = [] :=
  C7_amended_excluded_dir_pruned cfgC7 "foo.go" "foo.go" [childC7] (by decide)

/-- C8: with binary inclusion disabled, a file whose first line is not valid
UTF-8 contributes no findings at all — the scanning loop breaks on line 1
(before tokenizing it, and never reaching the remaining lines) and the
modelled `readFile` path returns normally (a nil error in Go, a successful
skip, not a failure). -/
theorem C8_binary_first_line_skips_file (cfg : Config)
    (fileName name : String) (l : Line) (rest : List Line)
    (hbin : cfg.includeBinaryFiles = false) (hval : l.valid = false) :
    readFile cfg fileName (FSNode.file name (l :: rest)) = [] := by
  simp only [readFile, scanLines, hbin, hval]
  split <;> simp

/-- Witness for C8: an invalid first line followed by a valid line with a
long token. -/
theorem C8_binary_first_line_skips_file_witness :
    readFile cfgC8 "bin.dat"
      (FSNode.file "bin.dat"
        [⟨false, ["tokentokens"]⟩, ⟨true, ["latertokens"]⟩]) = [] :=
  C8_binary_first_line_skips_file cfgC8 "bin.dat" "bin.dat"
    ⟨false, ["tokentokens"]⟩ [⟨true, ["latertokens"]⟩] rfl rfl

/-- C9: `entropy` is non-negative on every input: each distinct code point
contributes `-res * log2 res` with `0 < res ≤ 1` (even with the byte-length
denominator, since every code point occupies at least one byte), which is
non-negative. -/
theorem C9_entropy_nonneg (t : List Char) : 0 ≤ entropy t :=
  entropy_nonneg t

/-- C10: if the deny list contains the empty string, every file name ends
with it and the deny loop — checked first — rejects every file, regardless
of the allow list. -/
theorem C10_empty_deny_excludes_all (cfg : Config) (filename : String)
    (h : "" ∈ cfg.extensionsToIgnore) :
    isFileIncluded cfg filename = false := by
  have hsuf : goHasSuffix filename "" = true := by
    unfold goHasSuffix
    exact decide_eq_true List.nil_suffix
  have hany : cfg.extensionsToIgnore.any (fun ext => goHasSuffix filename ext)
      = true :=
    List.any_eq_true.mpr ⟨"", h, hsuf⟩
  simp [isFileIncluded, hany]

/-- Witness for C10: a deny list `[""]` excludes `main.go` despite the allow
list `["go"]` matching it. -/
theorem C10_empty_deny_excludes_all_witness :
    isFileIncluded ⟨1, false, false, ["go"], [""]⟩ "main.go" = false :=
  C10_empty_deny_excludes_all ⟨1, false, false, ["go"], [""]⟩ "main.go"
    (by decide)
